import Mathlib

/-!
# RTU-over-TCP transport of tensafe/modbus (`tcprtuclient.go`)

A shallow embedding of `tcpRtuTransporter` (`Send`, `Connect`, `Close`,
`flush`) together with the part of the Go run time it talks to: a `net.Conn`
whose behaviour is a script of read results, `io.ReadAtLeast` / `io.ReadFull`,
and a trace of the operations performed.

Bytes are natural numbers (a byte is a value below 256).  The constants
`rtuMinSize`, `rtuMaxSize`, `tcpMaxLength`, `tcpTimeoutMillis` and the function
`calculateResponseLength` are declared in other files of the package; they are
parameters of the embedding (`Params`).
-/

namespace Modbus

abbrev Byte := Nat

/-- Go `error` values that matter to the transport.  `net t c` is a value that
implements `net.Error` with `Timeout() = t`; `other c` is any other error. -/
inductive Err where
  | eof
  | unexpectedEOF
  | shortBuffer
  | net (timeout : Bool) (code : Nat)
  | other (code : Nat)
deriving DecidableEq, Repr

/-- The test `netError, ok := err.(net.Error); ok && netError.Timeout()`. -/
def Err.isNetTimeout : Err → Bool
  | .net t _ => t
  | _ => false

/-- One result the underlying `Read` is going to produce: the bytes it has and
the error it reports with them (`none` is `nil`). -/
structure Event where
  bytes : List Byte
  err : Option Err
deriving DecidableEq, Repr

/-- A `net.Conn`.  `pending` scripts the results of the coming `Read` calls;
once it is used up every `Read` returns `(0, final)` (the peer has closed, or
the deadline has passed).  The other fields are the results of `SetDeadline`,
`SetReadDeadline`, `Write` and `Close`. -/
structure Conn where
  id : Nat
  setDeadlineErr : Option Err
  setReadDeadlineErr : Option Err
  writeErr : Option Err
  closeErr : Option Err
  pending : List Event
  final : Err
deriving DecidableEq, Repr

/-- Operations performed on the outside world, oldest first. -/
inductive Op where
  | dial (address : String) (timeout : Int)
  | setDeadline (id : Nat) (timeout : Int)
  | setReadDeadline (id : Nat)
  | write (id : Nat) (bytes : List Byte)
  | read (id : Nat) (cap : Nat)
  | close (id : Nat)
  | logSending (bytes : List Byte)
  | logReceived (bytes : List Byte)
deriving DecidableEq, Repr

/-- What `dialer.Dial` returns. -/
inductive DialResult where
  | ok (c : Conn)
  | fail (e : Err)
deriving DecidableEq, Repr

/-- The world outside the transporter: the result of the next dial and the
trace of operations so far. -/
structure World where
  dialResult : DialResult
  trace : List Op
deriving DecidableEq, Repr

/-- Package-level declarations that `tcprtuclient.go` uses and that live in
other files of the package. -/
structure Params where
  rtuMinSize : Nat
  rtuMaxSize : Nat
  tcpMaxLength : Nat
  tcpTimeoutMillis : Int
  calculateResponseLength : List Byte → Int

/-- The Go constant `time.Millisecond`, in nanoseconds. -/
def Millisecond : Int := 1000000

/-- The struct `tcpRtuTransporter`; `Timeout` is a `time.Duration`
(nanoseconds), `Logger` a nullable pointer, `conn` a nullable interface. -/
structure tcpRtuTransporter where
  Address : String
  Timeout : Int
  Logger : Option Nat
  conn : Option Conn
deriving DecidableEq, Repr

/-- Result of a call that may panic at run time. -/
inductive Outcome where
  | ret (aduResponse : List Byte) (err : Option Err)
  | fault
deriving DecidableEq, Repr

/-- Result of a read helper: the bytes stored, the error, the connection and
the trace afterwards. -/
structure ReadResult where
  bytes : List Byte
  err : Option Err
  conn : Conn
  trace : List Op
deriving DecidableEq, Repr

/-- One call `c.Read(p)` with `len(p) = cap`: the next scripted result, cut to
the capacity of `p`; what does not fit stays in the stream. -/
def Conn.Read (c : Conn) (cap : Nat) (tr : List Op) : ReadResult :=
  match c.pending with
  | [] => ⟨[], some c.final, c, tr ++ [Op.read c.id cap]⟩
  | ev :: rest =>
    if ev.bytes.length ≤ cap then
      ⟨ev.bytes, ev.err, { c with pending := rest }, tr ++ [Op.read c.id cap]⟩
    else
      ⟨ev.bytes.take cap, none,
        { c with pending := ⟨ev.bytes.drop cap, ev.err⟩ :: rest }, tr ++ [Op.read c.id cap]⟩

/-- The loop `for n < min && err == nil { nn, err = r.Read(buf[n:]); n += nn }`
of `io.ReadAtLeast`, for `min ≤ len(buf) = bufLen`; `acc` holds `buf[:n]`.
It recurses on the script: a result that does not fit fills the buffer, and
a full buffer stops the loop (see `readLoop_step` for the loop equation). -/
def readLoop (c : Conn) (bufLen min : Nat) :
    List Event → List Byte → Option Err → List Op → ReadResult
  | [], acc, err, tr =>
    if acc.length < min ∧ err = none then
      ⟨acc, some c.final, { c with pending := [] }, tr ++ [Op.read c.id (bufLen - acc.length)]⟩
    else ⟨acc, err, { c with pending := [] }, tr⟩
  | ev :: rest, acc, err, tr =>
    if acc.length < min ∧ err = none then
      if ev.bytes.length ≤ bufLen - acc.length then
        readLoop c bufLen min rest (acc ++ ev.bytes) ev.err
          (tr ++ [Op.read c.id (bufLen - acc.length)])
      else
        ⟨acc ++ ev.bytes.take (bufLen - acc.length), none,
          { c with pending := ⟨ev.bytes.drop (bufLen - acc.length), ev.err⟩ :: rest },
          tr ++ [Op.read c.id (bufLen - acc.length)]⟩
    else ⟨acc, err, { c with pending := ev :: rest }, tr⟩

/-- Go `io.ReadAtLeast(c, buf, min)` with `len(buf) = bufLen`. -/
def ReadAtLeast (c : Conn) (tr : List Op) (bufLen min : Nat) : ReadResult :=
  if bufLen < min then ⟨[], some Err.shortBuffer, c, tr⟩
  else
    let r := readLoop c bufLen min c.pending [] none tr
    if min ≤ r.bytes.length then { r with err := none }
    else if 0 < r.bytes.length ∧ r.err = some Err.eof then { r with err := some Err.unexpectedEOF }
    else r

/-- Go `io.ReadFull(c, buf)`, which is `ReadAtLeast(c, buf, len(buf))`. -/
def ReadFull (c : Conn) (tr : List Op) (bufLen : Nat) : ReadResult :=
  ReadAtLeast c tr bufLen bufLen

/-- Whether the slice expression `data[lo:hi]` on an array of `cap` elements is
in range. -/
def sliceOK (lo hi : Int) (cap : Nat) : Bool :=
  decide (0 ≤ lo ∧ lo ≤ hi ∧ hi ≤ (cap : Int))

namespace tcpRtuTransporter

/-- The method `Connect`. -/
def Connect (P : Params) (mb : tcpRtuTransporter) (w : World) :
    Option Err × tcpRtuTransporter × World :=
  let mb1 := if mb.Timeout ≤ 0 then { mb with Timeout := P.tcpTimeoutMillis * Millisecond } else mb
  let w1 := { w with trace := w.trace ++ [Op.dial mb1.Address mb1.Timeout] }
  match w.dialResult with
  | .ok c => (none, { mb1 with conn := some c }, w1)
  | .fail e => (some e, { mb1 with conn := none }, w1)

/-- The method `Close`. -/
def Close (mb : tcpRtuTransporter) (w : World) : Option Err × tcpRtuTransporter × World :=
  match mb.conn with
  | some c => (c.closeErr, { mb with conn := none }, { w with trace := w.trace ++ [Op.close c.id] })
  | none => (none, mb, w)

/-- The method `flush`, with `len(b) = bLen`; `none` is a nil-pointer panic. -/
def flush (mb : tcpRtuTransporter) (w : World) (bLen : Nat) :
    Option (Option Err × tcpRtuTransporter × World) :=
  match mb.conn with
  | none => none
  | some c =>
    let tr := w.trace ++ [Op.setReadDeadline c.id]
    match c.setReadDeadlineErr with
    | some e => some (some e, mb, { w with trace := tr })
    | none =>
      let r := c.Read bLen tr
      let err :=
        match r.err with
        | some e => if e.isNetTimeout then none else some e
        | none => none
      some (err, { mb with conn := some r.conn }, { w with trace := r.trace })

/-- The end of `Send`: return the error if there is one, else `data[:n]`
(here `data`), logged when a logger is set. -/
def finish (mb : tcpRtuTransporter) (r : ReadResult) (data : List Byte) :
    Outcome × Conn × List Op :=
  match r.err with
  | some e => (.ret [] (some e), r.conn, r.trace)
  | none =>
    (.ret data none, r.conn,
      if mb.Logger.isSome then r.trace ++ [Op.logReceived data] else r.trace)

/-- The part of `Send` after the header read `h` has succeeded: the receive
buffer holds `h.bytes` in `data[:n]`, `n = h.bytes.length`, and zeros in the
positions not yet written.  Branches on the echoed function code `data[1]`;
the three nested `if`s of the normal branch have no `else` and are written as
one conjunction.  A slice expression out of range is a panic. -/
def receive (P : Params) (mb : tcpRtuTransporter) (function : Byte) (bytesToRead : Int)
    (h : ReadResult) : Outcome × Conn × List Op :=
  let functionFail := function &&& 0x80
  let n : Int := h.bytes.length
  if h.bytes.getD 1 0 = function then
    if n < bytesToRead ∧ bytesToRead > P.rtuMinSize ∧ bytesToRead ≤ P.rtuMaxSize
        ∧ bytesToRead > n then
      if sliceOK n bytesToRead P.tcpMaxLength then
        let r := ReadFull h.conn h.trace (bytesToRead - n).toNat
        finish mb r (h.bytes ++ r.bytes)
      else (.fault, h.conn, h.trace)
    else finish mb h h.bytes
  else if h.bytes.getD 1 0 = functionFail then
    if n < bytesToRead then
      if sliceOK n 5 P.tcpMaxLength then
        let r := ReadFull h.conn h.trace (5 - h.bytes.length)
        finish mb r (h.bytes ++ r.bytes)
      else (.fault, h.conn, h.trace)
    else finish mb h h.bytes
  else finish mb h h.bytes

/-- The body of `Send` from the logger call on, on the held connection `c`. -/
def exchange (P : Params) (mb : tcpRtuTransporter) (c : Conn) (tr : List Op)
    (aduRequest : List Byte) : Outcome × Conn × List Op :=
  let tr1 := if mb.Logger.isSome then tr ++ [Op.logSending aduRequest] else tr
  let tr2 := tr1 ++ [Op.setDeadline c.id mb.Timeout]
  match c.setDeadlineErr with
  | some e => (.ret [] (some e), c, tr2)
  | none =>
    let tr3 := tr2 ++ [Op.write c.id aduRequest]
    match c.writeErr with
    | some e => (.ret [] (some e), c, tr3)
    | none =>
      match aduRequest[1]? with
      | none => (.fault, c, tr3)
      | some function =>
        let bytesToRead := P.calculateResponseLength aduRequest
        let h := ReadAtLeast c tr3 P.tcpMaxLength P.rtuMinSize
        match h.err with
        | some e => (.ret [] (some e), h.conn, h.trace)
        | none => receive P mb function bytesToRead h

/-- `Send` once a connection is held. -/
def sendHeld (P : Params) (mb : tcpRtuTransporter) (w : World) (aduRequest : List Byte) :
    Outcome × tcpRtuTransporter × World :=
  match mb.conn with
  | none => (.fault, mb, w)
  | some c =>
    let r := exchange P mb c w.trace aduRequest
    (r.1, { mb with conn := some r.2.1 }, { w with trace := r.2.2 })

/-- The method `Send`.  With no connection held it connects and defers
`Close`, which then runs on every way out, a panic included. -/
def Send (P : Params) (mb : tcpRtuTransporter) (w : World) (aduRequest : List Byte) :
    Outcome × tcpRtuTransporter × World :=
  match mb.conn with
  | none =>
    let k := Connect P mb w
    match k.1 with
    | some e => (.ret [] (some e), k.2.1, k.2.2)
    | none =>
      let r := sendHeld P k.2.1 k.2.2 aduRequest
      let d := Close r.2.1 r.2.2
      (r.1, d.2.1, d.2.2)
  | some _ => sendHeld P mb w aduRequest

end tcpRtuTransporter

/-- Sample values of the package constants (RTU frame of 4 to 256 bytes, TCP
frame of at most 260 bytes, default timeout of 1000 ms) with a response length
of `L` for every request. -/
def sampleParams (L : Int) : Params :=
  ⟨4, 256, 260, 1000, fun _ => L⟩

/-- A connection on which every control operation succeeds and whose reads
deliver the given chunks, then end of file. -/
def chunkConn (chunks : List (List Byte)) : Conn :=
  ⟨1, none, none, none, none, chunks.map (fun b => ⟨b, none⟩), Err.eof⟩

/-- The request of the worked examples: read two holding registers (function
code 3) from unit 1, with its CRC. -/
def sampleRequest : List Byte := [1, 3, 0, 0, 0, 2, 196, 11]

/-- A transporter as `NewTcpRtuClientHandler` leaves it: only the address is
set. -/
def sampleTransporter : tcpRtuTransporter := ⟨"localhost:502", 0, none, none⟩

/-- A world in which the dial succeeds and the peer then sends `chunks`. -/
def answering (chunks : List (List Byte)) : World := ⟨.ok (chunkConn chunks), []⟩

/-- A connection with nothing to read: every `Read` ends in a timeout. -/
def idleConn : Conn := ⟨1, none, none, none, none, [], Err.net true 0⟩

/-- Buffer sizes of the `Read` calls in a trace, in order. -/
def readCaps (tr : List Op) : List Nat :=
  tr.filterMap fun op => match op with
    | .read _ cap => some cap
    | _ => none

/-- Identities of the connections closed in a trace, in order. -/
def closes (tr : List Op) : List Nat :=
  tr.filterMap fun op => match op with
    | .close id => some id
    | _ => none

/-- Address and timeout of the dials in a trace, in order. -/
def dials (tr : List Op) : List (String × Int) :=
  tr.filterMap fun op => match op with
    | .dial a t => some (a, t)
    | _ => none

/-- The header read of `Send` on connection `c`:
`io.ReadAtLeast(mb.conn, data[:], rtuMinSize)`, traced from an empty trace. -/
def header (P : Params) (c : Conn) : ReadResult :=
  ReadAtLeast c [] P.tcpMaxLength P.rtuMinSize

/-- One `io.ReadFull` of `L - n` bytes after the header read of `n` bytes on
connection `c`, traced from an empty trace. -/
def extension (P : Params) (c : Conn) (L : Int) : ReadResult :=
  ReadFull (header P c).conn [] (L - ((header P c).bytes.length : Int)).toNat

/-! ## The read loop -/

/-- What `Read` returns does not depend on the trace, which grows by the one
call. -/
theorem Read_trace (c : Conn) (cap : Nat) (tr : List Op) :
    c.Read cap tr = { c.Read cap [] with trace := tr ++ [Op.read c.id cap] } := by
  unfold Conn.Read
  split
  · rfl
  · split <;> rfl


theorem readLoop_trace (c : Conn) (bufLen min : Nat) (evs : List Event) (acc : List Byte)
    (err : Option Err) (tr : List Op) :
    readLoop c bufLen min evs acc err tr =
      { readLoop c bufLen min evs acc err [] with
        trace := tr ++ (readLoop c bufLen min evs acc err []).trace } := by
  induction evs generalizing acc err tr with
  | nil => simp only [readLoop]; split <;> simp
  | cons ev rest ih =>
    simp only [readLoop]
    split
    · split
      · rw [ih, ih _ _ ([] ++ _)]; simp
      · simp
    · simp

/-- The loop reads `c` only for its identity and its final error. -/
theorem readLoop_pending (c : Conn) (p : List Event) (bufLen min : Nat) (evs : List Event)
    (acc : List Byte) (err : Option Err) (tr : List Op) :
    readLoop { c with pending := p } bufLen min evs acc err tr =
      readLoop c bufLen min evs acc err tr := by
  induction evs generalizing acc err tr with
  | nil => simp [readLoop]
  | cons ev rest ih => simp [readLoop, ih]

/-- The loop equation of `io.ReadAtLeast`: while `n < min && err == nil`, one
more `Read` into `buf[n:]`. -/
theorem readLoop_step (c : Conn) (bufLen min : Nat) (acc : List Byte) (err : Option Err)
    (tr : List Op) (h : min ≤ bufLen) :
    readLoop c bufLen min c.pending acc err tr =
      if acc.length < min ∧ err = none then
        readLoop (c.Read (bufLen - acc.length) tr).conn bufLen min
          (c.Read (bufLen - acc.length) tr).conn.pending
          (acc ++ (c.Read (bufLen - acc.length) tr).bytes)
          (c.Read (bufLen - acc.length) tr).err
          (c.Read (bufLen - acc.length) tr).trace
      else ⟨acc, err, c, tr⟩ := by
  obtain ⟨id, sd, srd, wr, cl, pending, final⟩ := c
  cases pending with
  | nil =>
    by_cases g : acc.length < min ∧ err = none
    · simp [readLoop, Conn.Read, g]
    · simp [readLoop, g]
  | cons ev rest =>
    by_cases g : acc.length < min ∧ err = none
    · by_cases f : ev.bytes.length ≤ bufLen - acc.length
      · simp only [readLoop, Conn.Read, g, f, and_self, if_true]
        exact readLoop_pending ⟨id, sd, srd, wr, cl, rest, final⟩ (ev :: rest) _ _ _ _ _ _
      · have hlen : ¬ (acc.length + (bufLen - acc.length) < min) := by omega
        have hmin : Nat.min (bufLen - acc.length) ev.bytes.length = bufLen - acc.length := by
          apply Nat.min_eq_left; omega
        simp [readLoop, Conn.Read, g, f, hmin, hlen]
    · simp [readLoop, g]

/-- A loop that ends without an error has filled the buffer up to `min`. -/
theorem readLoop_ok_len (c : Conn) (bufLen min : Nat) (evs : List Event) (acc : List Byte)
    (err : Option Err) (tr : List Op) (h : min ≤ bufLen)
    (he : (readLoop c bufLen min evs acc err tr).err = none) :
    min ≤ (readLoop c bufLen min evs acc err tr).bytes.length := by
  induction evs generalizing acc err tr with
  | nil =>
    simp only [readLoop] at he ⊢
    split at he
    · simp at he
    · rename_i g
      split
      · rename_i g2; exact absurd g2 g
      · simp only at he ⊢
        by_contra hlt
        exact g ⟨by omega, he⟩
  | cons ev rest ih =>
    simp only [readLoop] at he ⊢
    by_cases g : acc.length < min ∧ err = none
    · simp only [g, and_self, if_true] at he ⊢
      by_cases f : ev.bytes.length ≤ bufLen - acc.length
      · simp only [f, if_true] at he ⊢
        exact ih _ _ _ he
      · simp only [f, if_false, List.length_append, List.length_take]
        have := g.1
        rw [Nat.min_eq_left (by omega)]
        omega
    · simp only [g, if_false] at he ⊢
      by_contra hlt
      exact g ⟨by omega, he⟩

/-- The loop never stores more than the buffer holds. -/
theorem readLoop_len_le (c : Conn) (bufLen min : Nat) (evs : List Event) (acc : List Byte)
    (err : Option Err) (tr : List Op) (h : acc.length ≤ bufLen) :
    (readLoop c bufLen min evs acc err tr).bytes.length ≤ bufLen := by
  induction evs generalizing acc err tr with
  | nil => simp only [readLoop]; split <;> exact h
  | cons ev rest ih =>
    simp only [readLoop]
    split
    · split
      · rename_i f
        apply ih
        simp only [List.length_append]; omega
      · simp only [List.length_append, List.length_take]
        have := Nat.min_le_left (bufLen - acc.length) ev.bytes.length
        omega
    · exact h

/-- The loop changes nothing of the connection but its pending reads. -/
theorem readLoop_conn (c : Conn) (bufLen min : Nat) (evs : List Event) (acc : List Byte)
    (err : Option Err) (tr : List Op) :
    (readLoop c bufLen min evs acc err tr).conn =
      { c with pending := (readLoop c bufLen min evs acc err tr).conn.pending } := by
  induction evs generalizing acc err tr with
  | nil => simp only [readLoop]; split <;> rfl
  | cons ev rest ih =>
    simp only [readLoop]
    split
    · split
      · exact ih _ _ _
      · rfl
    · rfl

/-- The loop adds only `Read` calls on `c` to the trace. -/
theorem readLoop_trace_reads (c : Conn) (bufLen min : Nat) (evs : List Event) (acc : List Byte)
    (err : Option Err) (tr : List Op) :
    ∃ caps : List Nat,
      (readLoop c bufLen min evs acc err tr).trace = tr ++ caps.map (Op.read c.id) := by
  induction evs generalizing acc err tr with
  | nil =>
    simp only [readLoop]
    split
    · exact ⟨[bufLen - acc.length], rfl⟩
    · exact ⟨[], by simp⟩
  | cons ev rest ih =>
    simp only [readLoop]
    split
    · split
      · obtain ⟨caps, hc⟩ := ih (acc ++ ev.bytes) ev.err (tr ++ [Op.read c.id (bufLen - acc.length)])
        exact ⟨(bufLen - acc.length) :: caps, by rw [hc]; simp⟩
      · exact ⟨[bufLen - acc.length], rfl⟩
    · exact ⟨[], by simp⟩

/-! ## `io.ReadAtLeast` and `io.ReadFull` -/

theorem ReadAtLeast_ok_len (c : Conn) (tr : List Op) (bufLen min : Nat)
    (he : (ReadAtLeast c tr bufLen min).err = none) :
    min ≤ (ReadAtLeast c tr bufLen min).bytes.length
      ∧ (ReadAtLeast c tr bufLen min).bytes.length ≤ bufLen := by
  unfold ReadAtLeast at he ⊢
  by_cases hb : bufLen < min
  · simp [hb] at he
  · simp only [hb, if_false] at he ⊢
    have hle := readLoop_len_le c bufLen min c.pending [] none tr (by simp)
    by_cases h1 : min ≤ (readLoop c bufLen min c.pending [] none tr).bytes.length
    · rw [if_pos h1]
      exact ⟨h1, hle⟩
    · simp only [h1, if_false] at he ⊢
      split at he
      · simp at he
      · exact absurd (readLoop_ok_len c bufLen min c.pending [] none tr (by omega) he) h1

theorem ReadAtLeast_conn (c : Conn) (tr : List Op) (bufLen min : Nat) :
    (ReadAtLeast c tr bufLen min).conn =
      { c with pending := (ReadAtLeast c tr bufLen min).conn.pending } := by
  unfold ReadAtLeast
  have h := readLoop_conn c bufLen min c.pending [] none tr
  split
  · rfl
  · simp only
    split
    · exact h
    · split <;> exact h

theorem ReadAtLeast_trace_reads (c : Conn) (tr : List Op) (bufLen min : Nat) :
    ∃ caps : List Nat, (ReadAtLeast c tr bufLen min).trace = tr ++ caps.map (Op.read c.id) := by
  unfold ReadAtLeast
  obtain ⟨caps, h⟩ := readLoop_trace_reads c bufLen min c.pending [] none tr
  split
  · exact ⟨[], by simp⟩
  · simp only
    split
    · exact ⟨caps, h⟩
    · split <;> exact ⟨caps, h⟩

/-- What `ReadAtLeast` stores and returns does not depend on the trace. -/
theorem ReadAtLeast_trace (c : Conn) (tr : List Op) (bufLen min : Nat) :
    ReadAtLeast c tr bufLen min =
      { ReadAtLeast c [] bufLen min with trace := tr ++ (ReadAtLeast c [] bufLen min).trace } := by
  unfold ReadAtLeast
  rw [readLoop_trace c bufLen min c.pending [] none tr]
  split
  · simp
  · simp only
    split
    · simp
    · split <;> simp

theorem ReadFull_ok_len (c : Conn) (tr : List Op) (bufLen : Nat)
    (he : (ReadFull c tr bufLen).err = none) : (ReadFull c tr bufLen).bytes.length = bufLen := by
  have h := ReadAtLeast_ok_len c tr bufLen bufLen he
  unfold ReadFull
  omega

/-! ## Reading a response delivered in chunks -/

/-- On a stream that delivers `chunks` without error, with room for all of them
and at least `min` bytes to come, the loop stops on a chunk boundary. -/
theorem readLoop_chunks (c : Conn) (bufLen min : Nat) (chunks : List (List Byte))
    (acc : List Byte) (tr : List Op)
    (hfit : acc.length + chunks.flatten.length ≤ bufLen)
    (hmin : min ≤ acc.length + chunks.flatten.length) :
    ∃ k, (readLoop c bufLen min (chunks.map fun b => ⟨b, none⟩) acc none tr).bytes
          = acc ++ (chunks.take k).flatten
      ∧ (readLoop c bufLen min (chunks.map fun b => ⟨b, none⟩) acc none tr).err = none
      ∧ (readLoop c bufLen min (chunks.map fun b => ⟨b, none⟩) acc none tr).conn.pending
          = (chunks.drop k).map (fun b => ⟨b, none⟩)
      ∧ min ≤ (readLoop c bufLen min (chunks.map fun b => ⟨b, none⟩) acc none tr).bytes.length := by
  induction chunks generalizing acc tr with
  | nil =>
    simp only [List.flatten_nil, List.length_nil, Nat.add_zero] at hmin
    have g : ¬ acc.length < min := by omega
    exact ⟨0, by simp [readLoop, g, hmin]⟩
  | cons b rest ih =>
    simp only [List.flatten_cons, List.length_append] at hfit hmin
    by_cases g : acc.length < min
    · have f : b.length ≤ bufLen - acc.length := by omega
      obtain ⟨k, h1, h2, h3, h4⟩ := ih (acc ++ b) (tr ++ [Op.read c.id (bufLen - acc.length)])
        (by simp only [List.length_append]; omega) (by simp only [List.length_append]; omega)
      refine ⟨k + 1, ?_⟩
      simp only [List.map_cons, readLoop, g, f, and_self, if_true, List.take_succ_cons,
        List.flatten_cons, List.drop_succ_cons]
      exact ⟨by rw [h1, List.append_assoc], h2, h3, h4⟩
    · refine ⟨0, ?_⟩
      simp only [List.map_cons, readLoop, g, false_and, if_false]
      simp
      omega

theorem ReadAtLeast_chunks (c : Conn) (tr : List Op) (bufLen min : Nat)
    (chunks : List (List Byte)) (hp : c.pending = chunks.map fun b => ⟨b, none⟩)
    (hfit : chunks.flatten.length ≤ bufLen) (hmin : min ≤ chunks.flatten.length) :
    ∃ k, (ReadAtLeast c tr bufLen min).bytes = (chunks.take k).flatten
      ∧ (ReadAtLeast c tr bufLen min).err = none
      ∧ (ReadAtLeast c tr bufLen min).conn.pending = (chunks.drop k).map (fun b => ⟨b, none⟩)
      ∧ min ≤ (ReadAtLeast c tr bufLen min).bytes.length := by
  obtain ⟨k, h1, h2, h3, h4⟩ := readLoop_chunks c bufLen min chunks [] tr
    (by simpa using hfit) (by simpa using hmin)
  have hb : ¬ bufLen < min := by omega
  refine ⟨k, ?_⟩
  unfold ReadAtLeast
  rw [hp]
  rw [if_neg hb]
  simp only
  rw [if_pos h4]
  exact ⟨by simpa using h1, rfl, h3, h4⟩

/-- `ReadFull` into a buffer of exactly the size of what the stream delivers
stores all of it. -/
theorem ReadFull_chunks (c : Conn) (tr : List Op) (chunks : List (List Byte))
    (hp : c.pending = chunks.map fun b => ⟨b, none⟩) :
    (ReadFull c tr chunks.flatten.length).bytes = chunks.flatten
      ∧ (ReadFull c tr chunks.flatten.length).err = none := by
  obtain ⟨k, h1, h2, _, h4⟩ := ReadAtLeast_chunks c tr chunks.flatten.length
    chunks.flatten.length chunks hp (le_refl _) (le_refl _)
  unfold ReadFull
  refine ⟨?_, h2⟩
  rw [h1] at h4 ⊢
  have hsplit : (chunks.take k).flatten ++ (chunks.drop k).flatten = chunks.flatten := by
    rw [← List.flatten_append, List.take_append_drop]
  have hlen := congrArg List.length hsplit
  simp only [List.length_append] at hlen
  have hnil : (chunks.drop k).flatten = [] := List.eq_nil_of_length_eq_zero (by omega)
  rw [hnil, List.append_nil] at hsplit
  exact hsplit

/-! ## Observations on traces -/

theorem readCaps_append (a b : List Op) : readCaps (a ++ b) = readCaps a ++ readCaps b := by
  simp [readCaps, List.filterMap_append]

theorem closes_append (a b : List Op) : closes (a ++ b) = closes a ++ closes b := by
  simp [closes, List.filterMap_append]

theorem dials_append (a b : List Op) : dials (a ++ b) = dials a ++ dials b := by
  simp [dials, List.filterMap_append]

theorem closes_reads (id : Nat) (caps : List Nat) : closes (caps.map (Op.read id)) = [] := by
  induction caps with
  | nil => rfl
  | cons a r ih => simp [closes]

theorem dials_reads (id : Nat) (caps : List Nat) : dials (caps.map (Op.read id)) = [] := by
  induction caps with
  | nil => rfl
  | cons a r ih => simp [dials]

/-! ## Shape of `Send` -/

namespace tcpRtuTransporter

theorem finish_conn (mb : tcpRtuTransporter) (r : ReadResult) (data : List Byte) :
    (finish mb r data).2.1 = r.conn := by
  unfold finish; split <;> rfl

theorem finish_trace (mb : tcpRtuTransporter) (r : ReadResult) (data : List Byte) :
    closes (finish mb r data).2.2 = closes r.trace
      ∧ dials (finish mb r data).2.2 = dials r.trace
      ∧ readCaps (finish mb r data).2.2 = readCaps r.trace := by
  unfold finish
  split
  · exact ⟨rfl, rfl, rfl⟩
  · split <;> simp [closes, dials, readCaps, List.filterMap_append]

theorem finish_outcome (mb : tcpRtuTransporter) (r : ReadResult) (data : List Byte) :
    (finish mb r data).1 =
      match r.err with
      | some e => .ret [] (some e)
      | none => .ret data none := by
  unfold finish; split <;> rfl

/-- The three ways `receive` ends: a fault on a slice out of range, the header
returned as it is, or one `ReadFull` appended to the header. -/
theorem receive_shape (P : Params) (mb : tcpRtuTransporter) (F : Byte) (L : Int)
    (h : ReadResult) :
    receive P mb F L h = (.fault, h.conn, h.trace)
      ∨ receive P mb F L h = finish mb h h.bytes
      ∨ ∃ k, receive P mb F L h
          = finish mb (ReadFull h.conn h.trace k) (h.bytes ++ (ReadFull h.conn h.trace k).bytes) := by
  unfold receive
  simp only
  split
  · split
    · split
      · exact Or.inr (Or.inr ⟨_, rfl⟩)
      · exact Or.inl rfl
    · exact Or.inr (Or.inl rfl)
  · split
    · split
      · split
        · exact Or.inr (Or.inr ⟨_, rfl⟩)
        · exact Or.inl rfl
      · exact Or.inr (Or.inl rfl)
    · exact Or.inr (Or.inl rfl)

/-- `receive` keeps the connection (only its pending reads change) and neither
closes nor dials. -/
theorem receive_session (P : Params) (mb : tcpRtuTransporter) (F : Byte) (L : Int)
    (h : ReadResult) :
    (receive P mb F L h).2.1 = { h.conn with pending := (receive P mb F L h).2.1.pending }
      ∧ closes (receive P mb F L h).2.2 = closes h.trace
      ∧ dials (receive P mb F L h).2.2 = dials h.trace := by
  rcases receive_shape P mb F L h with e | e | ⟨k, e⟩
  · rw [e]; exact ⟨rfl, rfl, rfl⟩
  · rw [e, finish_conn]
    exact ⟨rfl, (finish_trace mb h h.bytes).1, (finish_trace mb h h.bytes).2.1⟩
  · rw [e, finish_conn]
    have ht := finish_trace mb (ReadFull h.conn h.trace k)
      (h.bytes ++ (ReadFull h.conn h.trace k).bytes)
    obtain ⟨caps, hc⟩ := ReadAtLeast_trace_reads h.conn h.trace k k
    refine ⟨?_, ?_, ?_⟩
    · have := ReadAtLeast_conn h.conn h.trace k k
      unfold ReadFull
      rw [this]
    · rw [ht.1]; unfold ReadFull; rw [hc, closes_append, closes_reads]; simp
    · rw [ht.2.1]; unfold ReadFull; rw [hc, dials_append, dials_reads]; simp

/-- `exchange` keeps the connection (only its pending reads change) and
neither closes nor dials. -/
theorem exchange_session (P : Params) (mb : tcpRtuTransporter) (c : Conn) (tr : List Op)
    (req : List Byte) :
    (exchange P mb c tr req).2.1 = { c with pending := (exchange P mb c tr req).2.1.pending }
      ∧ closes (exchange P mb c tr req).2.2 = closes tr
      ∧ dials (exchange P mb c tr req).2.2 = dials tr := by
  have h1 : ∀ t : List Op, closes (if mb.Logger.isSome then t ++ [Op.logSending req] else t)
      = closes t := by
    intro t; split <;> simp [closes, List.filterMap_append]
  have h2 : ∀ t : List Op, dials (if mb.Logger.isSome then t ++ [Op.logSending req] else t)
      = dials t := by
    intro t; split <;> simp [dials, List.filterMap_append]
  unfold exchange
  simp only
  split
  · refine ⟨rfl, ?_, ?_⟩
    · rw [closes_append, h1]; simp [closes]
    · rw [dials_append, h2]; simp [dials]
  · split
    · refine ⟨rfl, ?_, ?_⟩
      · rw [closes_append, closes_append, h1]; simp [closes]
      · rw [dials_append, dials_append, h2]; simp [dials]
    · split
      · refine ⟨rfl, ?_, ?_⟩
        · rw [closes_append, closes_append, h1]; simp [closes]
        · rw [dials_append, dials_append, h2]; simp [dials]
      · obtain ⟨caps, hc⟩ := ReadAtLeast_trace_reads c
          ((if mb.Logger.isSome then tr ++ [Op.logSending req] else tr)
            ++ [Op.setDeadline c.id mb.Timeout] ++ [Op.write c.id req])
          P.tcpMaxLength P.rtuMinSize
        have hconn := ReadAtLeast_conn c
          ((if mb.Logger.isSome then tr ++ [Op.logSending req] else tr)
            ++ [Op.setDeadline c.id mb.Timeout] ++ [Op.write c.id req])
          P.tcpMaxLength P.rtuMinSize
        have hcl : closes (ReadAtLeast c
            ((if mb.Logger.isSome then tr ++ [Op.logSending req] else tr)
              ++ [Op.setDeadline c.id mb.Timeout] ++ [Op.write c.id req])
            P.tcpMaxLength P.rtuMinSize).trace = closes tr := by
          rw [hc, closes_append, closes_reads, closes_append, closes_append, h1]; simp [closes]
        have hdl : dials (ReadAtLeast c
            ((if mb.Logger.isSome then tr ++ [Op.logSending req] else tr)
              ++ [Op.setDeadline c.id mb.Timeout] ++ [Op.write c.id req])
            P.tcpMaxLength P.rtuMinSize).trace = dials tr := by
          rw [hc, dials_append, dials_reads, dials_append, dials_append, h2]; simp [dials]
        split
        · exact ⟨hconn, hcl, hdl⟩
        · rename_i F _ _ _
          have hr := receive_session P mb F (P.calculateResponseLength req) (ReadAtLeast c
            ((if mb.Logger.isSome then tr ++ [Op.logSending req] else tr)
              ++ [Op.setDeadline c.id mb.Timeout] ++ [Op.write c.id req])
            P.tcpMaxLength P.rtuMinSize)
          refine ⟨?_, ?_, ?_⟩
          · rw [hr.1, hconn]
          · rw [hr.2.1, hcl]
          · rw [hr.2.2, hdl]

end tcpRtuTransporter

/-! ## Normal response delivered in chunks -/

namespace tcpRtuTransporter

/-- After a header that echoes the function code, with the rest of the
expected length still to come in `rest`, `receive` returns header and rest. -/
theorem receive_normal (P : Params) (mb : tcpRtuTransporter) (F : Byte) (L : Int)
    (h : ReadResult) (rest : List (List Byte))
    (hF : h.bytes.getD 1 0 = F) (herr : h.err = none)
    (hrest : h.conn.pending = rest.map fun b => ⟨b, none⟩)
    (hL : L = ((h.bytes.length + rest.flatten.length : Nat) : Int))
    (hmin : P.rtuMinSize ≤ h.bytes.length) (hLmax : L ≤ P.rtuMaxSize)
    (hmax : P.rtuMaxSize ≤ P.tcpMaxLength) :
    (receive P mb F L h).1 = .ret (h.bytes ++ rest.flatten) none := by
  unfold receive
  simp only [hF, if_true]
  by_cases hlt : (h.bytes.length : Int) < L
  · have hcond : (h.bytes.length : Int) < L ∧ L > (P.rtuMinSize : Int) ∧ L ≤ (P.rtuMaxSize : Int)
        ∧ L > (h.bytes.length : Int) := by
      refine ⟨hlt, ?_, hLmax, hlt⟩
      have : (P.rtuMinSize : Int) ≤ (h.bytes.length : Int) := by exact_mod_cast hmin
      omega
    have hslice : sliceOK (h.bytes.length : Int) L P.tcpMaxLength = true := by
      unfold sliceOK
      have : (P.rtuMaxSize : Int) ≤ (P.tcpMaxLength : Int) := by exact_mod_cast hmax
      simp only [decide_eq_true_eq]
      omega
    have hk : (L - (h.bytes.length : Int)).toNat = rest.flatten.length := by
      rw [hL]; push_cast; omega
    obtain ⟨hb, he⟩ := ReadFull_chunks h.conn h.trace rest hrest
    rw [if_pos hcond, if_pos hslice, hk, finish_outcome, he, hb]
  · have hnil : rest.flatten = [] := by
      apply List.eq_nil_of_length_eq_zero
      rw [hL] at hlt; push_cast at hlt; omega
    have hcond : ¬ ((h.bytes.length : Int) < L ∧ L > (P.rtuMinSize : Int)
        ∧ L ≤ (P.rtuMaxSize : Int) ∧ L > (h.bytes.length : Int)) := fun x => hlt x.1
    rw [if_neg hcond, finish_outcome, herr, hnil, List.append_nil]

/-- The exchange on a connection that accepts deadline and write and then
delivers the response `chunks.flatten` of the expected length. -/
theorem exchange_normal (P : Params) (mb : tcpRtuTransporter) (c : Conn) (tr : List Op)
    (req : List Byte) (F : Byte) (chunks : List (List Byte))
    (hmin : 2 ≤ P.rtuMinSize) (hmax : P.rtuMaxSize ≤ P.tcpMaxLength)
    (hreq : req[1]? = some F)
    (hsd : c.setDeadlineErr = none) (hwr : c.writeErr = none)
    (hp : c.pending = chunks.map fun b => ⟨b, none⟩)
    (hF : chunks.flatten[1]? = some F)
    (hL : P.calculateResponseLength req = (chunks.flatten.length : Int))
    (hlo : P.rtuMinSize ≤ chunks.flatten.length) (hhi : chunks.flatten.length ≤ P.rtuMaxSize) :
    (exchange P mb c tr req).1 = .ret chunks.flatten none := by
  unfold exchange
  simp only [hsd, hwr, hreq]
  generalize (if mb.Logger.isSome then tr ++ [Op.logSending req] else tr)
    ++ [Op.setDeadline c.id mb.Timeout] ++ [Op.write c.id req] = tr3
  obtain ⟨k, hb, he, hpend, hlen⟩ := ReadAtLeast_chunks c tr3 P.tcpMaxLength P.rtuMinSize chunks hp
    (by omega) hlo
  have hsplit : (chunks.take k).flatten ++ (chunks.drop k).flatten = chunks.flatten := by
    rw [← List.flatten_append, List.take_append_drop]
  rw [he]
  simp only
  rw [← hsplit, ← hb]
  apply receive_normal
  · rw [List.getD_eq_getElem?_getD]
    rw [← hsplit, ← hb, List.getElem?_append_left (by omega)] at hF
    rw [hF]; rfl
  · exact he
  · exact hpend
  · rw [hL, ← hsplit, ← hb, List.length_append]
  · exact hlen
  · rw [hL]; exact_mod_cast hhi
  · exact hmax

/-- The result of `Send` is the result of the exchange on the connection in
use: the one held, or the one just dialled. -/
theorem Send_outcome (P : Params) (mb : tcpRtuTransporter) (w : World) (c : Conn)
    (req : List Byte) (hconn : mb.conn = some c ∨ (mb.conn = none ∧ w.dialResult = .ok c)) :
    ∃ mb1 tr1, mb1.Logger = mb.Logger ∧ readCaps tr1 = readCaps w.trace
      ∧ (Send P mb w req).1 = (exchange P mb1 c tr1 req).1
      ∧ readCaps (Send P mb w req).2.2.trace = readCaps (exchange P mb1 c tr1 req).2.2 := by
  obtain ⟨a, t, l, conn⟩ := mb
  obtain ⟨dr, tr⟩ := w
  rcases hconn with h | ⟨h1, h2⟩
  · simp only at h
    subst h
    exact ⟨_, tr, rfl, rfl, rfl, rfl⟩
  · simp only at h1 h2
    subst h1 h2
    by_cases ht : t ≤ 0
    · refine ⟨⟨a, P.tcpTimeoutMillis * Millisecond, l, some c⟩,
        tr ++ [Op.dial a (P.tcpTimeoutMillis * Millisecond)], rfl, ?_, ?_, ?_⟩
      · simp [readCaps, List.filterMap_append]
      · simp [Send, Connect, sendHeld, ht]
      · simp [Send, Connect, sendHeld, Close, ht, readCaps, List.filterMap_append]
    · refine ⟨⟨a, t, l, some c⟩, tr ++ [Op.dial a t], rfl, ?_, ?_, ?_⟩
      · simp [readCaps, List.filterMap_append]
      · simp [Send, Connect, sendHeld, ht]
      · simp [Send, Connect, sendHeld, Close, ht, readCaps, List.filterMap_append]

/-- C1: normal-response round trip.  For a request of at least two bytes with
function code `F = request[1]`, on a connection (held, or dialled by `Send`)
that accepts the deadline and the write and then delivers a response `R` whose
second byte is `F` and whose length is `calculateResponseLength(request)`,
between `rtuMinSize` and `rtuMaxSize`, split into successive reads `chunks` in
any way (empty reads allowed as well), `Send` returns `R` and no error.  The
package constants are taken with `2 ≤ rtuMinSize` and
`rtuMaxSize ≤ tcpMaxLength`. -/
theorem Send_normal_roundtrip (P : Params) (mb : tcpRtuTransporter) (w : World) (c : Conn)
    (req : List Byte) (F : Byte) (R : List Byte) (chunks : List (List Byte))
    (hmin : 2 ≤ P.rtuMinSize) (hmax : P.rtuMaxSize ≤ P.tcpMaxLength)
    (hreq : req[1]? = some F)
    (hconn : mb.conn = some c ∨ (mb.conn = none ∧ w.dialResult = .ok c))
    (hsd : c.setDeadlineErr = none) (hwr : c.writeErr = none)
    (hp : c.pending = chunks.map fun b => ⟨b, none⟩)
    (hR : chunks.flatten = R)
    (hF : R[1]? = some F)
    (hL : P.calculateResponseLength req = (R.length : Int))
    (hlo : P.rtuMinSize ≤ R.length) (hhi : R.length ≤ P.rtuMaxSize) :
    (Send P mb w req).1 = .ret R none := by
  subst hR
  obtain ⟨mb1, tr1, _, _, h, _⟩ := Send_outcome P mb w c req hconn
  rw [h]
  exact exchange_normal P mb1 c tr1 req F chunks hmin hmax hreq hsd hwr hp hF hL hlo hhi

end tcpRtuTransporter

/-! ## The extension read of a normal response -/

namespace tcpRtuTransporter

theorem ReadFull_trace (c : Conn) (tr : List Op) (bufLen : Nat) :
    ReadFull c tr bufLen =
      { ReadFull c [] bufLen with trace := tr ++ (ReadFull c [] bufLen).trace } :=
  ReadAtLeast_trace c tr bufLen bufLen

/-- The exchange after a successful header read that echoes the function
code: one `ReadFull` of the missing bytes when `n < L`, `rtuMinSize < L` and
`L ≤ rtuMaxSize`, and no further read otherwise. -/
theorem exchange_extension (P : Params) (mb : tcpRtuTransporter) (c : Conn) (tr : List Op)
    (req : List Byte) (F : Byte)
    (hmax : P.rtuMaxSize ≤ P.tcpMaxLength) (hreq : req[1]? = some F)
    (hsd : c.setDeadlineErr = none) (hwr : c.writeErr = none)
    (hh : (header P c).err = none) (hF : (header P c).bytes.getD 1 0 = F) :
    if ((header P c).bytes.length : Int) < P.calculateResponseLength req
        ∧ (P.rtuMinSize : Int) < P.calculateResponseLength req
        ∧ P.calculateResponseLength req ≤ (P.rtuMaxSize : Int) then
      readCaps (exchange P mb c tr req).2.2
          = readCaps tr ++ readCaps (header P c).trace
              ++ readCaps (extension P c (P.calculateResponseLength req)).trace
        ∧ (exchange P mb c tr req).1
          = (match (extension P c (P.calculateResponseLength req)).err with
              | none => .ret ((header P c).bytes
                  ++ (extension P c (P.calculateResponseLength req)).bytes) none
              | some e => .ret [] (some e))
    else
      readCaps (exchange P mb c tr req).2.2 = readCaps tr ++ readCaps (header P c).trace
        ∧ (exchange P mb c tr req).1 = .ret (header P c).bytes none := by
  have htr3 : readCaps ((if mb.Logger.isSome then tr ++ [Op.logSending req] else tr)
      ++ [Op.setDeadline c.id mb.Timeout] ++ [Op.write c.id req]) = readCaps tr := by
    split <;> simp [readCaps, List.filterMap_append]
  unfold exchange
  simp only [hsd, hwr, hreq]
  generalize (if mb.Logger.isSome then tr ++ [Op.logSending req] else tr)
    ++ [Op.setDeadline c.id mb.Timeout] ++ [Op.write c.id req] = tr3 at htr3 ⊢
  rw [ReadAtLeast_trace c tr3]
  unfold extension
  unfold header at hh hF ⊢
  generalize ReadAtLeast c [] P.tcpMaxLength P.rtuMinSize = h0 at hh hF ⊢
  generalize P.calculateResponseLength req = L
  simp only [hh]
  unfold receive
  simp only [hF, if_true]
  by_cases hc : (h0.bytes.length : Int) < L ∧ (P.rtuMinSize : Int) < L ∧ L ≤ (P.rtuMaxSize : Int)
  · have hcond : (h0.bytes.length : Int) < L ∧ L > (P.rtuMinSize : Int)
        ∧ L ≤ (P.rtuMaxSize : Int) ∧ L > (h0.bytes.length : Int) := ⟨hc.1, hc.2.1, hc.2.2, hc.1⟩
    have hslice : sliceOK (h0.bytes.length : Int) L P.tcpMaxLength = true := by
      unfold sliceOK
      have : (P.rtuMaxSize : Int) ≤ (P.tcpMaxLength : Int) := by exact_mod_cast hmax
      simp only [decide_eq_true_eq]
      omega
    rw [if_pos hc, if_pos hcond, if_pos hslice, ReadFull_trace]
    generalize ReadFull h0.conn [] (L - (h0.bytes.length : Int)).toNat = x
    refine ⟨?_, ?_⟩
    · rw [(finish_trace _ _ _).2.2]
      simp only [readCaps_append, htr3]
    · rw [finish_outcome]
      obtain ⟨xb, xe, xc, xt⟩ := x
      cases xe <;> rfl
  · have hcond : ¬ ((h0.bytes.length : Int) < L ∧ L > (P.rtuMinSize : Int)
        ∧ L ≤ (P.rtuMaxSize : Int) ∧ L > (h0.bytes.length : Int)) :=
      fun x => hc ⟨x.1, x.2.1, x.2.2.1⟩
    rw [if_neg hc, if_neg hcond]
    refine ⟨?_, ?_⟩
    · rw [(finish_trace _ _ _).2.2]
      simp only [readCaps_append, htr3]
    · rw [finish_outcome]

/-- C9 (amended): after a header read of `n ≥ rtuMinSize` bytes that echoes
the function code, `Send` makes an extension read exactly when `n < L`,
`rtuMinSize < L` and `L ≤ rtuMaxSize` (the upper bound is not strict), where
`L = calculateResponseLength(request)`.  The extension is one `ReadFull` of
`L - n` bytes appended to the header; when it succeeds the response is header
plus extension, of length `L`, and when it fails `Send` returns its error.
Otherwise no further read is made and the response is the header.  The
package constants are taken with `rtuMaxSize ≤ tcpMaxLength`. -/
theorem Send_extension_read (P : Params) (mb : tcpRtuTransporter) (w : World) (c : Conn)
    (req : List Byte) (F : Byte)
    (hmax : P.rtuMaxSize ≤ P.tcpMaxLength) (hreq : req[1]? = some F)
    (hconn : mb.conn = some c ∨ (mb.conn = none ∧ w.dialResult = .ok c))
    (hsd : c.setDeadlineErr = none) (hwr : c.writeErr = none)
    (hh : (header P c).err = none) (hF : (header P c).bytes.getD 1 0 = F) :
    P.rtuMinSize ≤ (header P c).bytes.length
      ∧ if ((header P c).bytes.length : Int) < P.calculateResponseLength req
          ∧ (P.rtuMinSize : Int) < P.calculateResponseLength req
          ∧ P.calculateResponseLength req ≤ (P.rtuMaxSize : Int) then
        readCaps (Send P mb w req).2.2.trace
            = readCaps w.trace ++ readCaps (header P c).trace
                ++ readCaps (extension P c (P.calculateResponseLength req)).trace
          ∧ (Send P mb w req).1
            = (match (extension P c (P.calculateResponseLength req)).err with
                | none => .ret ((header P c).bytes
                    ++ (extension P c (P.calculateResponseLength req)).bytes) none
                | some e => .ret [] (some e))
          ∧ ((extension P c (P.calculateResponseLength req)).err = none →
              ((((header P c).bytes
                ++ (extension P c (P.calculateResponseLength req)).bytes).length : Nat) : Int)
                = P.calculateResponseLength req)
      else
        readCaps (Send P mb w req).2.2.trace = readCaps w.trace ++ readCaps (header P c).trace
          ∧ (Send P mb w req).1 = .ret (header P c).bytes none := by
  obtain ⟨mb1, tr1, _, htr, ho, hcaps⟩ := Send_outcome P mb w c req hconn
  have hx := exchange_extension P mb1 c tr1 req F hmax hreq hsd hwr hh hF
  refine ⟨(ReadAtLeast_ok_len c [] P.tcpMaxLength P.rtuMinSize hh).1, ?_⟩
  rw [ho, hcaps, ← htr]
  split
  · rename_i hc
    rw [if_pos hc] at hx
    refine ⟨hx.1, hx.2, ?_⟩
    intro he
    have hl := ReadFull_ok_len _ _ _ he
    unfold extension at he ⊢
    rw [List.length_append, hl]
    have := hc.1
    push_cast
    omega
  · rename_i hc
    rw [if_neg hc] at hx
    exact hx

end tcpRtuTransporter

/-! ## What `Send` can return -/

namespace tcpRtuTransporter

/-- After a successful header read `receive` faults, or returns an error and
no bytes, or returns no error and at least the header. -/
theorem receive_complete (P : Params) (mb : tcpRtuTransporter) (F : Byte) (L : Int)
    (h : ReadResult) (hlen : P.rtuMinSize ≤ h.bytes.length) :
    (receive P mb F L h).1 = .fault
      ∨ (∃ e, (receive P mb F L h).1 = .ret [] (some e))
      ∨ (∃ r, (receive P mb F L h).1 = .ret r none ∧ P.rtuMinSize ≤ r.length) := by
  rcases receive_shape P mb F L h with e | e | ⟨k, e⟩
  · rw [e]; exact Or.inl rfl
  · rw [e, finish_outcome]
    cases h.err with
    | some x => exact Or.inr (Or.inl ⟨x, rfl⟩)
    | none => exact Or.inr (Or.inr ⟨_, rfl, hlen⟩)
  · rw [e, finish_outcome]
    cases (ReadFull h.conn h.trace k).err with
    | some x => exact Or.inr (Or.inl ⟨x, rfl⟩)
    | none =>
      refine Or.inr (Or.inr ⟨_, rfl, ?_⟩)
      rw [List.length_append]; omega

theorem exchange_complete (P : Params) (mb : tcpRtuTransporter) (c : Conn) (tr : List Op)
    (req : List Byte) :
    (exchange P mb c tr req).1 = .fault
      ∨ (∃ e, (exchange P mb c tr req).1 = .ret [] (some e))
      ∨ (∃ r, (exchange P mb c tr req).1 = .ret r none ∧ P.rtuMinSize ≤ r.length) := by
  unfold exchange
  simp only
  split
  · exact Or.inr (Or.inl ⟨_, rfl⟩)
  · split
    · exact Or.inr (Or.inl ⟨_, rfl⟩)
    · split
      · exact Or.inl rfl
      · split
        · exact Or.inr (Or.inl ⟨_, rfl⟩)
        · rename_i he
          exact receive_complete P mb _ _ _ (ReadAtLeast_ok_len _ _ _ _ he).1

/-- Whenever `Send` returns, it returns an error and no bytes, or no error and
at least `rtuMinSize` bytes; the only other way out is a run-time panic. -/
theorem Send_complete (P : Params) (mb : tcpRtuTransporter) (w : World) (req : List Byte) :
    (Send P mb w req).1 = .fault
      ∨ (∃ e, (Send P mb w req).1 = .ret [] (some e))
      ∨ (∃ r, (Send P mb w req).1 = .ret r none ∧ P.rtuMinSize ≤ r.length) := by
  obtain ⟨a, t, l, conn⟩ := mb
  obtain ⟨dr, tr⟩ := w
  cases conn with
  | some c => exact exchange_complete P _ c tr req
  | none =>
    cases dr with
    | fail e => exact Or.inr (Or.inl ⟨e, by simp [Send, Connect]⟩)
    | ok c =>
      obtain ⟨mb1, tr1, _, _, h, _⟩ :=
        Send_outcome P ⟨a, t, l, none⟩ ⟨.ok c, tr⟩ c req (Or.inr ⟨rfl, rfl⟩)
      rw [h]
      exact exchange_complete P mb1 c tr1 req

/-- An echoed code that is neither the function code nor `function & 0x80`
(the value the code compares with) leaves the header as the response. -/
theorem receive_fallback (P : Params) (mb : tcpRtuTransporter) (F : Byte) (L : Int)
    (h : ReadResult) (hF : h.bytes.getD 1 0 ≠ F) (hE : h.bytes.getD 1 0 ≠ F &&& 0x80) :
    receive P mb F L h = finish mb h h.bytes := by
  unfold receive
  simp only
  rw [if_neg hF, if_neg hE]

/-- With `5 ≤ tcpMaxLength` and `rtuMaxSize ≤ tcpMaxLength`, `receive` faults
exactly in the exception branch entered with more than five bytes read. -/
theorem receive_fault_iff (P : Params) (mb : tcpRtuTransporter) (F : Byte) (L : Int)
    (h : ReadResult) (h5 : 5 ≤ P.tcpMaxLength) (hmax : P.rtuMaxSize ≤ P.tcpMaxLength) :
    (receive P mb F L h).1 = .fault
      ↔ h.bytes.getD 1 0 ≠ F ∧ h.bytes.getD 1 0 = F &&& 0x80
          ∧ (h.bytes.length : Int) < L ∧ 5 < h.bytes.length := by
  have hfin : ∀ (r : ReadResult) (d : List Byte), (finish mb r d).1 ≠ .fault := by
    intro r d; rw [finish_outcome]; cases r.err <;> simp
  unfold receive
  simp only
  by_cases hF : h.bytes.getD 1 0 = F
  · rw [if_pos hF]
    split
    · rename_i hc
      have hslice : sliceOK (h.bytes.length : Int) L P.tcpMaxLength = true := by
        unfold sliceOK
        have : (P.rtuMaxSize : Int) ≤ (P.tcpMaxLength : Int) := by exact_mod_cast hmax
        simp only [decide_eq_true_eq]
        omega
      rw [if_pos hslice]
      exact ⟨fun x => absurd x (hfin _ _), fun x => absurd hF x.1⟩
    · exact ⟨fun x => absurd x (hfin _ _), fun x => absurd hF x.1⟩
  · rw [if_neg hF]
    by_cases hE : h.bytes.getD 1 0 = F &&& 0x80
    · rw [if_pos hE]
      by_cases hl : (h.bytes.length : Int) < L
      · rw [if_pos hl]
        by_cases hn : 5 < h.bytes.length
        · have hslice : ¬ sliceOK (h.bytes.length : Int) 5 P.tcpMaxLength = true := by
            unfold sliceOK
            simp only [decide_eq_true_eq]
            omega
          rw [if_neg hslice]
          exact ⟨fun _ => ⟨hF, hE, hl, hn⟩, fun _ => rfl⟩
        · have hslice : sliceOK (h.bytes.length : Int) 5 P.tcpMaxLength = true := by
            unfold sliceOK
            simp only [decide_eq_true_eq]
            omega
          rw [if_pos hslice]
          exact ⟨fun x => absurd x (hfin _ _), fun x => absurd x.2.2.2 hn⟩
      · rw [if_neg hl]
        exact ⟨fun x => absurd x (hfin _ _), fun x => absurd x.2.2.1 hl⟩
    · rw [if_neg hE]
      exact ⟨fun x => absurd x (hfin _ _), fun x => absurd x.2.1 hE⟩

end tcpRtuTransporter

/-! ## Session handling of `Send` -/

namespace tcpRtuTransporter

/-- C4: session handling of `Send`.  Called with no connection held, `Send`
holds none when it is over, on every way out; it dials exactly once, and a
connection it opened is closed exactly once (none is closed when the dial
fails).  Called with a connection `c` held, `Send` still holds `c` afterwards
(only the pending reads of `c` have changed), and has neither closed a
connection nor dialled. -/
theorem Send_session (P : Params) (mb : tcpRtuTransporter) (w : World) (req : List Byte) :
    match mb.conn with
    | none =>
      (Send P mb w req).2.1.conn = none
        ∧ dials (Send P mb w req).2.2.trace
            = dials w.trace ++ [(mb.Address,
                if mb.Timeout ≤ 0 then P.tcpTimeoutMillis * Millisecond else mb.Timeout)]
        ∧ (match w.dialResult with
            | .ok c => closes (Send P mb w req).2.2.trace = closes w.trace ++ [c.id]
            | .fail _ => closes (Send P mb w req).2.2.trace = closes w.trace)
    | some c =>
      (∃ p, (Send P mb w req).2.1.conn = some { c with pending := p })
        ∧ closes (Send P mb w req).2.2.trace = closes w.trace
        ∧ dials (Send P mb w req).2.2.trace = dials w.trace := by
  obtain ⟨a, t, l, conn⟩ := mb
  obtain ⟨dr, tr⟩ := w
  cases conn with
  | some c =>
    have h := exchange_session P ⟨a, t, l, some c⟩ c tr req
    simp only [Send, sendHeld]
    exact ⟨⟨_, congrArg some h.1⟩, h.2.1, h.2.2⟩
  | none =>
    cases dr with
    | fail e =>
      by_cases ht : t ≤ 0 <;>
        simp [Send, Connect, ht, dials, closes, List.filterMap_append]
    | ok c =>
      by_cases ht : t ≤ 0
      · have h := exchange_session P ⟨a, P.tcpTimeoutMillis * Millisecond, l, some c⟩ c
          (tr ++ [Op.dial a (P.tcpTimeoutMillis * Millisecond)]) req
        simp only [Send, Connect, sendHeld, Close, ht, if_true]
        refine ⟨trivial, ?_, ?_⟩
        · rw [dials_append, h.2.2, dials_append]; simp [dials]
        · rw [closes_append, h.2.1, closes_append, h.1]; simp [closes]
      · have h := exchange_session P ⟨a, t, l, some c⟩ c (tr ++ [Op.dial a t]) req
        simp only [Send, Connect, sendHeld, Close, ht, if_false]
        refine ⟨trivial, ?_, ?_⟩
        · rw [dials_append, h.2.2, dials_append]; simp [dials]
        · rw [closes_append, h.2.1, closes_append, h.1]; simp [closes]

end tcpRtuTransporter

/-! ## Connection life cycle: `Close`, `flush`, `Connect` -/

namespace tcpRtuTransporter

/-- C5: after `Close` no connection is held and `Address`, `Timeout`, `Logger`
are unchanged; with a connection held the underlying close is called exactly
once and its error is what `Close` returns; with none held `Close` returns no
error and touches nothing; a second `Close` right after is a no-op without
error. -/
theorem Close_clears_connection (mb : tcpRtuTransporter) (w : World) :
    (Close mb w).2.1.conn = none
      ∧ (Close mb w).2.1.Address = mb.Address
      ∧ (Close mb w).2.1.Timeout = mb.Timeout
      ∧ (Close mb w).2.1.Logger = mb.Logger
      ∧ (match mb.conn with
          | some c =>
            (Close mb w).1 = c.closeErr ∧ (Close mb w).2.2.trace = w.trace ++ [Op.close c.id]
          | none => Close mb w = (none, mb, w))
      ∧ Close (Close mb w).2.1 (Close mb w).2.2 = (none, (Close mb w).2.1, (Close mb w).2.2) := by
  obtain ⟨a, t, l, conn⟩ := mb
  cases conn with
  | none => simp [Close]
  | some c => simp [Close]

/-- C6: `flush` on a held connection `c`.  When `SetReadDeadline` fails, that
error is returned and no read is made.  Otherwise exactly one `Read` with the
supplied buffer is made; the result is nil when the read succeeds or fails
with a timeout `net.Error`, and the read error itself otherwise.  So `flush`
returns an error exactly when the deadline call failed or the read failed with
an error that is not a timeout. -/
theorem flush_timeout_is_success (mb : tcpRtuTransporter) (w : World) (bLen : Nat) (c : Conn)
    (hc : mb.conn = some c) :
    ∃ err mb1 w1, flush mb w bLen = some (err, mb1, w1)
      ∧ (∀ e, c.setReadDeadlineErr = some e →
          err = some e ∧ mb1 = mb ∧ w1.trace = w.trace ++ [Op.setReadDeadline c.id])
      ∧ (c.setReadDeadlineErr = none →
          w1.trace = w.trace ++ [Op.setReadDeadline c.id, Op.read c.id bLen]
          ∧ ((c.Read bLen []).err = none → err = none)
          ∧ (∀ e, (c.Read bLen []).err = some e → e.isNetTimeout = true → err = none)
          ∧ (∀ e, (c.Read bLen []).err = some e → e.isNetTimeout = false → err = some e))
      ∧ (err ≠ none ↔
          c.setReadDeadlineErr ≠ none
            ∨ (c.setReadDeadlineErr = none
                ∧ ∃ e, (c.Read bLen []).err = some e ∧ e.isNetTimeout = false)) := by
  obtain ⟨a, t, l, conn⟩ := mb
  simp only at hc
  subst hc
  unfold flush
  simp only
  cases hs : c.setReadDeadlineErr with
  | some e => exact ⟨_, _, _, rfl, by simp, by simp, by simp⟩
  | none =>
    simp only
    rw [Read_trace c bLen (w.trace ++ [Op.setReadDeadline c.id])]
    generalize c.Read bLen [] = x
    obtain ⟨xb, xe, xc, xt⟩ := x
    cases xe with
    | none => exact ⟨_, _, _, rfl, by simp, by simp, by simp⟩
    | some e =>
      cases ht : e.isNetTimeout with
      | true => exact ⟨_, _, _, rfl, by simp, by simp [ht], by simp [ht]⟩
      | false => exact ⟨_, _, _, rfl, by simp, by simp [ht], by simp [ht]⟩

/-- C7: `Connect` dials with `Timeout` when it is positive and with
`tcpTimeoutMillis` milliseconds otherwise, and leaves that value in `Timeout`;
`Address` and `Logger` are unchanged; this holds whatever the dial returns, and
with a positive `tcpTimeoutMillis` the `Timeout` is positive afterwards. -/
theorem Connect_defaults_timeout (P : Params) (mb : tcpRtuTransporter) (w : World) :
    (Connect P mb w).2.2.trace
        = w.trace ++ [Op.dial mb.Address
            (if mb.Timeout ≤ 0 then P.tcpTimeoutMillis * Millisecond else mb.Timeout)]
      ∧ (Connect P mb w).2.1.Timeout
        = (if mb.Timeout ≤ 0 then P.tcpTimeoutMillis * Millisecond else mb.Timeout)
      ∧ (Connect P mb w).2.1.Address = mb.Address
      ∧ (Connect P mb w).2.1.Logger = mb.Logger
      ∧ (0 < P.tcpTimeoutMillis → 0 < (Connect P mb w).2.1.Timeout) := by
  have hpos : 0 < P.tcpTimeoutMillis → 0 < P.tcpTimeoutMillis * Millisecond := by
    intro h; unfold Millisecond; omega
  obtain ⟨a, t, l, conn⟩ := mb
  obtain ⟨dr, tr⟩ := w
  by_cases ht : t ≤ 0
  · cases dr <;> simpa [Connect, ht] using hpos
  · cases dr <;> simp [Connect, ht] <;> omega

end tcpRtuTransporter

/-! ## Evaluations on concrete exchanges -/

namespace tcpRtuTransporter

/-- The round trip of C1 on the worked example: the nine-byte response to
`sampleRequest`, delivered in three reads. -/
theorem Send_normal_roundtrip_witness :
    (Send (sampleParams 9) sampleTransporter
      (answering [[1, 3, 4, 0], [10, 1, 2], [90, 96]]) sampleRequest).1
      = .ret [1, 3, 4, 0, 10, 1, 2, 90, 96] none :=
  Send_normal_roundtrip (sampleParams 9) sampleTransporter
    (answering [[1, 3, 4, 0], [10, 1, 2], [90, 96]])
    (chunkConn [[1, 3, 4, 0], [10, 1, 2], [90, 96]]) sampleRequest 3
    [1, 3, 4, 0, 10, 1, 2, 90, 96] [[1, 3, 4, 0], [10, 1, 2], [90, 96]]
    (by decide) (by decide) rfl (Or.inr ⟨rfl, rfl⟩) rfl rfl rfl rfl rfl rfl
    (by decide) (by decide)

/-- C2 (code): for the request with function code 3, the peer's exception
response `01 83 02 C0 F1` delivered as four bytes and then one comes back from
`Send` without error as the four bytes `01 83 02 C0`: the echoed code `0x83`
is compared with `0x03 & 0x80 = 0`, so the fifth byte is never read. -/
theorem Send_exception_response_truncated :
    (Send (sampleParams 9) sampleTransporter (answering [[1, 131, 2, 192], [241]])
        sampleRequest).1 = .ret [1, 131, 2, 192] none
      ∧ readCaps (Send (sampleParams 9) sampleTransporter (answering [[1, 131, 2, 192], [241]])
        sampleRequest).2.2.trace = [260] := by
  decide

/-- C8 (code): for the request with function code 3, a first read of the four
bytes `01 00 02 03`, whose echoed code `0x00` is neither `0x03` nor `0x83`, is
followed by a second read of one byte, and `Send` returns five bytes. -/
theorem Send_fallback_reads_again :
    (Send (sampleParams 9) sampleTransporter (answering [[1, 0, 2, 3], [4, 5]])
        sampleRequest).1 = .ret [1, 0, 2, 3, 4] none
      ∧ readCaps (Send (sampleParams 9) sampleTransporter (answering [[1, 0, 2, 3], [4, 5]])
        sampleRequest).2.2.trace = [260, 1] := by
  decide

/-- C3 (code): for the request with function code 3 and expected length 9, a
first read of the six bytes `01 00 02 03 04 05` makes `Send` panic on
`data[6:5]`: it returns neither an error nor a response. -/
theorem Send_faults_instead_of_returning :
    (Send (sampleParams 9) sampleTransporter (answering [[1, 0, 2, 3, 4, 5]])
        sampleRequest).1 = .fault := by
  decide

/-- C10 (code): with `rtuMinSize = 4 ≤ 5 ≤ rtuMaxSize = 256 ≤ tcpMaxLength =
260`, a request with function code `0x10`, expected length 8, and a first read
of `n = 7` bytes whose second byte is `0x10 & 0x80 = 0`: the slice `data[7:5]`
of the exception branch is out of range and `Send` panics. -/
theorem Send_exception_slice_out_of_range :
    (header (sampleParams 8) (chunkConn [[1, 0, 0, 1, 0, 2, 16]])).err = none
      ∧ (header (sampleParams 8) (chunkConn [[1, 0, 0, 1, 0, 2, 16]])).bytes.length = 7
      ∧ sliceOK 7 5 (sampleParams 8).tcpMaxLength = false
      ∧ (Send (sampleParams 8) sampleTransporter (answering [[1, 0, 0, 1, 0, 2, 16]])
          [1, 16, 0, 1, 0, 2, 4, 0, 10, 1, 2, 146, 48]).1 = .fault := by
  decide

/-- The theorem of C9 on the worked example: a header read of four bytes that
echoes function code 3, with five bytes still to come. -/
theorem Send_extension_read_witness :
    (sampleParams 9).rtuMinSize
      ≤ (header (sampleParams 9) (chunkConn [[1, 3, 4, 0], [10, 1, 2, 90, 96]])).bytes.length :=
  (Send_extension_read (sampleParams 9) sampleTransporter
    (answering [[1, 3, 4, 0], [10, 1, 2, 90, 96]])
    (chunkConn [[1, 3, 4, 0], [10, 1, 2, 90, 96]]) sampleRequest 3
    (by decide) rfl (Or.inr ⟨rfl, rfl⟩) rfl rfl (by decide) (by decide)).1

set_option maxRecDepth 100000 in
/-- C9 (as stated) fails at `L = rtuMaxSize`: for a request to read 2001 coils
(function code 1), whose response has 256 bytes, after a header read of four
bytes that echoes the code `Send` makes an extension read of 252 bytes and
returns all 256 bytes, although `L < rtuMaxSize` does not hold. -/
theorem Send_extension_read_at_rtuMaxSize :
    ¬ ((256 : Int) < ((sampleParams 256).rtuMaxSize : Int))
      ∧ (header (sampleParams 256)
          (chunkConn [[1, 1, 251, 0], List.replicate 250 0 ++ [144, 196]])).bytes = [1, 1, 251, 0]
      ∧ readCaps (Send (sampleParams 256) sampleTransporter
          (answering [[1, 1, 251, 0], List.replicate 250 0 ++ [144, 196]])
          [1, 1, 0, 0, 7, 209, 254, 102]).2.2.trace = [260, 252]
      ∧ (Send (sampleParams 256) sampleTransporter
          (answering [[1, 1, 251, 0], List.replicate 250 0 ++ [144, 196]])
          [1, 1, 0, 0, 7, 209, 254, 102]).1
        = .ret ([1, 1, 251, 0] ++ (List.replicate 250 0 ++ [144, 196])) none := by
  decide

/-- The theorem of C6 on an idle connection: the read times out and `flush`
returns nil. -/
theorem flush_timeout_is_success_witness :
    (flush { sampleTransporter with conn := some idleConn } (answering []) 16).map (fun r => r.1)
      = some none := by
  obtain ⟨err, mb1, w1, h, _, h2, _⟩ :=
    flush_timeout_is_success { sampleTransporter with conn := some idleConn } (answering []) 16
      idleConn rfl
  rw [h, (h2 rfl).2.2.1 (Err.net true 0) rfl rfl]
  rfl

/-- The theorem of C7 on a fresh transporter: the timeout is positive after
`Connect`. -/
theorem Connect_defaults_timeout_witness :
    0 < (Connect (sampleParams 9) sampleTransporter (answering [])).2.1.Timeout :=
  (Connect_defaults_timeout (sampleParams 9) sampleTransporter (answering [])).2.2.2.2
    (by decide)

end tcpRtuTransporter

end Modbus
